import Mathlib

/-!
Verification of the Markdown-to-block converter of `notion-sync.py`
(`NotionSync.markdown_to_blocks` and `NotionSync._parse_rich_text`),
shallowly embedded over `List Char`.

Python strings are modelled as `List Char`; the per-character scan of
`_parse_rich_text` and the per-line scan of `markdown_to_blocks` are
modelled structurally with an explicit fuel argument (the fuel is always
instantiated with the input length, which is enough because every
iteration of either Python loop consumes at least one character / line).
-/

/-- One rich-text item as built by `_parse_rich_text`: a dict with a
`content` string, optional bold/italic flags, and an optional link URL. -/
structure TextSpan where
  content : List Char
  bold : Bool
  italic : Bool
  link : Option (List Char)
deriving DecidableEq, Repr

def plainSpan (c : List Char) : TextSpan := ⟨c, false, false, none⟩

def boldSpan (c : List Char) : TextSpan := ⟨c, true, false, none⟩

def italicSpan (c : List Char) : TextSpan := ⟨c, false, true, none⟩

def linkSpan (c u : List Char) : TextSpan := ⟨c, false, false, some u⟩

/-- A Notion block as built by `markdown_to_blocks`. -/
inductive Block where
  | heading (level : Nat) (rich : List TextSpan)
  | divider
  | quote (rich : List TextSpan)
  | code (language : List Char) (rich : List TextSpan)
  | bulleted (rich : List TextSpan)
  | numbered (rich : List TextSpan)
  | paragraph (rich : List TextSpan)
deriving DecidableEq, Repr

/-- The rich-text list owned by a block, `none` for dividers and
code blocks (the block kinds claim C10 excludes). -/
def blockRich : Block → Option (List TextSpan)
  | Block.heading _ r => some r
  | Block.divider => none
  | Block.quote r => some r
  | Block.code _ _ => none
  | Block.bulleted r => some r
  | Block.numbered r => some r
  | Block.paragraph r => some r

/-- `text.find('**', i)` recast on the suffix that starts at `i`: the
characters strictly before the first occurrence of `**`, and `some` of the
remainder after that occurrence (`none` when there is no occurrence,
matching `find` returning `-1`). -/
def splitBold : List Char → List Char × Option (List Char)
  | [] => ([], none)
  | c :: rest =>
    if c = '*' ∧ rest.head? = some '*' then ([], some rest.tail)
    else
      let p := splitBold rest
      (c :: p.1, p.2)

/-- `text.find(t, i)` recast on the suffix that starts at `i`: the
characters strictly before the first occurrence of the single character
`t`, and `some` of the remainder after it (`none` when absent). -/
def splitChar (t : Char) : List Char → List Char × Option (List Char)
  | [] => ([], none)
  | c :: rest =>
    if c = t then ([], some rest)
    else
      let p := splitChar t rest
      (c :: p.1, p.2)

/-- Python `if current: result.append({..content: current..})`. -/
def flushPlain (current : List Char) : List TextSpan :=
  if current = [] then [] else [plainSpan current]

/-- The scanning loop of `_parse_rich_text` (lines 172-231 of
`notion-sync.py`).  `prev` is `text[i-1]` (`none` at `i = 0`), the list
argument is the suffix `text[i:]`, `current` is the plain-run accumulator.
The fuel only bounds the number of iterations; each iteration advances
`i` by at least one, so fuel `text.length` is always sufficient. -/
def parseF : Nat → Option Char → List Char → List Char → List TextSpan
  | _, _, [], current => flushPlain current
  | 0, _, _ :: _, _ => []
  | fuel+1, prev, c :: rest, current =>
    if c = '*' ∧ rest.head? = some '*' then
      match splitBold rest.tail with
      | (content, some r) => flushPlain current ++ boldSpan content :: parseF fuel (some '*') r []
      | (content, none) => flushPlain current ++ [boldSpan content]
    else if c = '*' ∧ prev ≠ some '*' then
      match splitChar '*' rest with
      | (content, some r) => flushPlain current ++ italicSpan content :: parseF fuel (some '*') r []
      | (content, none) => flushPlain current ++ [italicSpan content]
    else if c = '[' then
      match splitChar ']' rest with
      | (ltext, some ('(' :: r2)) =>
        match splitChar ')' r2 with
        | (url, some r3) => flushPlain current ++ linkSpan ltext url :: parseF fuel (some ')') r3 []
        | (_, none) => parseF fuel (some '[') rest (current ++ ['['])
      | _ => parseF fuel (some '[') rest (current ++ ['['])
    else
      parseF fuel (some c) rest (current ++ [c])

/-- The full list `result` built by the scan of `_parse_rich_text`. -/
def parseScan (text : List Char) : List TextSpan :=
  parseF text.length none text []

/-- `_parse_rich_text` itself: `return result[0] if result else
{"type": "text", "text": {"content": ""}}` (line 233). -/
def parse_rich_text (text : List Char) : TextSpan :=
  match parseScan text with
  | [] => plainSpan []
  | s :: _ => s

/-- The characters stripped by Python `str.strip()` (ASCII whitespace;
none of the inputs in play contain other Unicode whitespace). -/
def isPySpace (c : Char) : Bool :=
  c = ' ' || c = '\t' || c = '\n' || c = '\r' || c = '\x0b' || c = '\x0c'

/-- Python `s.strip()`. -/
def strip (l : List Char) : List Char :=
  ((l.dropWhile isPySpace).reverse.dropWhile isPySpace).reverse

/-- Python `s.split(t)` for a single-character separator `t`. -/
def splitOnChar (t : Char) : List Char → List (List Char)
  | [] => [[]]
  | c :: rest =>
    if c = t then [] :: splitOnChar t rest
    else
      match splitOnChar t rest with
      | f :: fs => (c :: f) :: fs
      | [] => [[c]]

def h1Marker : List Char := "# ".toList

def h2Marker : List Char := "## ".toList

def h3Marker : List Char := "### ".toList

def dashRule : List Char := "---".toList

def starRule : List Char := "***".toList

def underscoreRule : List Char := "___".toList

def quoteMarker : List Char := "> ".toList

def fenceMarker : List Char := "```".toList

def bulletMarker1 : List Char := "- ".toList

def bulletMarker2 : List Char := "* ".toList

def plainTextLang : List Char := "plain text".toList

def barSep : List Char := " | ".toList

/-- `re.match(r'^\d+\. ', line)` followed by `re.sub(r'^\d+\. ', '', line)`:
`some rest` when the raw line starts with one or more digits, then a
period, then a space; `rest` is the line with that prefix removed. -/
def numberedRest (line : List Char) : Option (List Char) :=
  if line.takeWhile Char.isDigit = [] then none
  else
    match line.dropWhile Char.isDigit with
    | '.' :: ' ' :: r => some r
    | _ => none

/-- Lines 142-143: `cells = [c.strip() for c in line.split('|')[1:-1]]`,
`text = ' | '.join(cells)`. -/
def tableText (line : List Char) : List Char :=
  List.intercalate barSep ((((splitOnChar '|' line).drop 1).dropLast).map strip)

/-- `_heading_block` (lines 162-168). -/
def heading_block (text : List Char) (level : Nat) : Block :=
  Block.heading level [parse_rich_text text]

/-- The `while i < len(lines)` dispatch loop of `markdown_to_blocks`
(lines 55-158), one fuel unit per outer iteration.  The inner code-fence
`while` (lines 102-104) is the `takeWhile`/`dropWhile` pair; `.drop 1`
is the `i += 1` stepping past the closing fence (line 113).  Every outer
iteration consumes at least one line, so fuel `lines.length` suffices. -/
def blocksLoopF : Nat → List (List Char) → List Block
  | _, [] => []
  | 0, _ :: _ => []
  | fuel+1, line :: rest =>
    if strip line = [] then blocksLoopF fuel rest
    else if h1Marker.isPrefixOf line then
      heading_block (line.drop 2) 1 :: blocksLoopF fuel rest
    else if h2Marker.isPrefixOf line then
      heading_block (line.drop 3) 2 :: blocksLoopF fuel rest
    else if h3Marker.isPrefixOf line then
      heading_block (line.drop 4) 3 :: blocksLoopF fuel rest
    else if strip line = dashRule ∨ strip line = starRule ∨ strip line = underscoreRule then
      Block.divider :: blocksLoopF fuel rest
    else if quoteMarker.isPrefixOf line then
      Block.quote [plainSpan (line.drop 2)] :: blocksLoopF fuel rest
    else if fenceMarker.isPrefixOf line then
      let lang := if 3 < line.length then strip (line.drop 3) else []
      let codeLines := rest.takeWhile (fun l => !(fenceMarker.isPrefixOf l))
      let rest2 := (rest.dropWhile (fun l => !(fenceMarker.isPrefixOf l))).drop 1
      Block.code (if lang = [] then plainTextLang else lang)
          [plainSpan (List.intercalate ['\n'] codeLines)] :: blocksLoopF fuel rest2
    else if bulletMarker1.isPrefixOf (strip line) ∨ bulletMarker2.isPrefixOf (strip line) then
      Block.bulleted [parse_rich_text ((strip line).drop 2)] :: blocksLoopF fuel rest
    else
      match numberedRest line with
      | some r => Block.numbered [parse_rich_text r] :: blocksLoopF fuel rest
      | none =>
        if '|' ∈ line ∧ ¬ ('|' :: []).isPrefixOf (strip line) then
          Block.paragraph [parse_rich_text (tableText line)] :: blocksLoopF fuel rest
        else
          Block.paragraph [parse_rich_text line] :: blocksLoopF fuel rest

/-- The dispatch loop run to completion on a line list. -/
def blocksLoop (lines : List (List Char)) : List Block :=
  blocksLoopF lines.length lines

/-- `markdown_to_blocks` (lines 49-160): split the document on newlines,
run the dispatch loop, truncate to 100 blocks (`return blocks[:100]`). -/
def markdown_to_blocks (content : List Char) : List Block :=
  (blocksLoop (splitOnChar '\n' content)).take 100

/-- `content` contains the two-character marker `**` somewhere. -/
def hasBoldMark : List Char → Bool
  | [] => false
  | c :: rest => if c = '*' ∧ rest.head? = some '*' then true else hasBoldMark rest

/-- The (amended) delimiter invariant for one span: bold content has no
`**`, italic content has no `*`, link content has no `]`. -/
def spanMarksOk (s : TextSpan) : Prop :=
  (s.bold = true → hasBoldMark s.content = false) ∧
  (s.italic = true → '*' ∉ s.content) ∧
  (s.link.isSome = true → ']' ∉ s.content)

theorem splitBold_fst_head (l : List Char) :
    (splitBold l).1.head? = none ∨ (splitBold l).1.head? = l.head? := by
  cases l with
  | nil => left; rfl
  | cons c rest =>
    simp only [splitBold]
    split
    · left; rfl
    · right; rfl

theorem hasBoldMark_splitBold (l : List Char) : hasBoldMark (splitBold l).1 = false := by
  induction l with
  | nil => rfl
  | cons c rest ih =>
    simp only [splitBold]
    split
    · rfl
    · rename_i h
      simp only [hasBoldMark]
      split
      · rename_i h2
        exfalso
        apply h
        refine ⟨h2.1, ?_⟩
        rcases splitBold_fst_head rest with h3 | h3
        · rw [h3] at h2; exact absurd h2.2 (by simp)
        · rw [← h3]; exact h2.2
      · exact ih

theorem splitChar_not_mem (t : Char) (l : List Char) : t ∉ (splitChar t l).1 := by
  induction l with
  | nil => simp [splitChar]
  | cons c rest ih =>
    simp only [splitChar]
    split
    · simp
    · rename_i h
      simp only [List.mem_cons, not_or]
      exact ⟨fun e => h e.symm, ih⟩

theorem mem_flushPlain {s : TextSpan} {cur : List Char} (h : s ∈ flushPlain cur) :
    s = plainSpan cur := by
  unfold flushPlain at h
  split at h
  · simp at h
  · simpa using h


theorem spanMarksOk_plain (c : List Char) : spanMarksOk (plainSpan c) := by
  simp [spanMarksOk, plainSpan]

theorem parseF_marks (fuel : Nat) : ∀ prev text current s, s ∈ parseF fuel prev text current →
    spanMarksOk s := by
  induction fuel with
  | zero =>
    intro prev text current s hs
    cases text with
    | nil =>
      exact (mem_flushPlain hs) ▸ spanMarksOk_plain current
    | cons c rest => simp [parseF] at hs
  | succ f ih =>
    intro prev text current s hs
    cases text with
    | nil => exact (mem_flushPlain hs) ▸ spanMarksOk_plain current
    | cons c rest =>
      simp only [parseF] at hs
      split at hs
      · -- bold branch
        rename_i hcond
        split at hs
        · rename_i content r heq
          rcases List.mem_append.mp hs with h | h
          · exact (mem_flushPlain h) ▸ spanMarksOk_plain current
          · rcases List.mem_cons.mp h with rfl | h
            · refine ⟨fun _ => ?_, by simp [boldSpan], by simp [boldSpan]⟩
              have := hasBoldMark_splitBold rest.tail
              rw [heq] at this
              exact this
            · exact ih _ _ _ _ h
        · rename_i content heq
          rcases List.mem_append.mp hs with h | h
          · exact (mem_flushPlain h) ▸ spanMarksOk_plain current
          · rcases List.mem_cons.mp h with rfl | h
            · refine ⟨fun _ => ?_, by simp [boldSpan], by simp [boldSpan]⟩
              have := hasBoldMark_splitBold rest.tail
              rw [heq] at this
              exact this
            · simp at h
      · split at hs
        · -- italic branch
          rename_i hcond2
          split at hs
          · rename_i content r heq
            rcases List.mem_append.mp hs with h | h
            · exact (mem_flushPlain h) ▸ spanMarksOk_plain current
            · rcases List.mem_cons.mp h with rfl | h
              · refine ⟨by simp [italicSpan], fun _ => ?_, by simp [italicSpan]⟩
                have := splitChar_not_mem '*' rest
                rw [heq] at this
                exact this
              · exact ih _ _ _ _ h
          · rename_i content heq
            rcases List.mem_append.mp hs with h | h
            · exact (mem_flushPlain h) ▸ spanMarksOk_plain current
            · rcases List.mem_cons.mp h with rfl | h
              · refine ⟨by simp [italicSpan], fun _ => ?_, by simp [italicSpan]⟩
                have := splitChar_not_mem '*' rest
                rw [heq] at this
                exact this
              · simp at h
        · split at hs
          · -- link branch
            split at hs
            · rename_i ltext r1 heq
              split at hs
              · rename_i url r3 heq2
                rcases List.mem_append.mp hs with h | h
                · exact (mem_flushPlain h) ▸ spanMarksOk_plain current
                · rcases List.mem_cons.mp h with rfl | h
                  · refine ⟨by simp [linkSpan], by simp [linkSpan], fun _ => ?_⟩
                    have := splitChar_not_mem ']' rest
                    rw [heq] at this
                    exact this
                  · exact ih _ _ _ _ h
              · exact ih _ _ _ _ hs
            · exact ih _ _ _ _ hs
          · exact ih _ _ _ _ hs

theorem parseF_eq_nil (fuel : Nat) : ∀ prev text current, text.length ≤ fuel →
    parseF fuel prev text current = [] → text = [] ∧ current = [] := by
  induction fuel with
  | zero =>
    intro prev text current hlen h
    have ht : text = [] := List.length_eq_zero.mp (Nat.le_zero.mp hlen)
    subst ht
    refine ⟨rfl, ?_⟩
    unfold parseF flushPlain at h
    split at h
    · assumption
    · simp at h
  | succ f ih =>
    intro prev text current hlen h
    cases text with
    | nil =>
      refine ⟨rfl, ?_⟩
      unfold parseF flushPlain at h
      split at h
      · assumption
      · simp at h
    | cons c rest =>
      exfalso
      have hr : rest.length ≤ f := Nat.le_of_succ_le_succ hlen
      simp only [parseF] at h
      split at h
      · split at h <;> simp at h
      · split at h
        · split at h <;> simp at h
        · split at h
          · split at h
            · split at h
              · simp at h
              · exact absurd (ih _ _ _ hr h).2 (by simp)
            · exact absurd (ih _ _ _ hr h).2 (by simp)
          · exact absurd (ih _ _ _ hr h).2 (by simp)

theorem blocksLoopF_nil (fuel : Nat) : blocksLoopF fuel [] = [] := by
  cases fuel <;> rfl

theorem blocksLoopF_zero (lines : List (List Char)) : blocksLoopF 0 lines = [] := by
  cases lines <;> rfl

theorem blocksLoopF_cons (fuel : Nat) (line : List Char) (rest : List (List Char)) :
    blocksLoopF (fuel+1) (line :: rest) =
    (if strip line = [] then blocksLoopF fuel rest
    else if h1Marker.isPrefixOf line then
      heading_block (line.drop 2) 1 :: blocksLoopF fuel rest
    else if h2Marker.isPrefixOf line then
      heading_block (line.drop 3) 2 :: blocksLoopF fuel rest
    else if h3Marker.isPrefixOf line then
      heading_block (line.drop 4) 3 :: blocksLoopF fuel rest
    else if strip line = dashRule ∨ strip line = starRule ∨ strip line = underscoreRule then
      Block.divider :: blocksLoopF fuel rest
    else if quoteMarker.isPrefixOf line then
      Block.quote [plainSpan (line.drop 2)] :: blocksLoopF fuel rest
    else if fenceMarker.isPrefixOf line then
      let lang := if 3 < line.length then strip (line.drop 3) else []
      let codeLines := rest.takeWhile (fun l => !(fenceMarker.isPrefixOf l))
      let rest2 := (rest.dropWhile (fun l => !(fenceMarker.isPrefixOf l))).drop 1
      Block.code (if lang = [] then plainTextLang else lang)
          [plainSpan (List.intercalate ['\n'] codeLines)] :: blocksLoopF fuel rest2
    else if bulletMarker1.isPrefixOf (strip line) ∨ bulletMarker2.isPrefixOf (strip line) then
      Block.bulleted [parse_rich_text ((strip line).drop 2)] :: blocksLoopF fuel rest
    else
      match numberedRest line with
      | some r => Block.numbered [parse_rich_text r] :: blocksLoopF fuel rest
      | none =>
        if '|' ∈ line ∧ ¬ ('|' :: []).isPrefixOf (strip line) then
          Block.paragraph [parse_rich_text (tableText line)] :: blocksLoopF fuel rest
        else
          Block.paragraph [parse_rich_text line] :: blocksLoopF fuel rest) := rfl

theorem blocksLoopF_rich (fuel : Nat) : ∀ lines b, b ∈ blocksLoopF fuel lines →
    ∀ r, blockRich b = some r → r.length = 1 := by
  induction fuel with
  | zero =>
    intro lines b hb
    rw [blocksLoopF_zero] at hb
    exact absurd hb (List.not_mem_nil b)
  | succ f ih =>
    intro lines b hb
    cases lines with
    | nil =>
      rw [blocksLoopF_nil] at hb
      exact absurd hb (List.not_mem_nil b)
    | cons line rest =>
      rw [blocksLoopF_cons] at hb
      split at hb
      · exact ih _ _ hb
      · split at hb
        · rcases List.mem_cons.mp hb with rfl | hb'
          · intro r hr; simp [heading_block, blockRich] at hr; simp [← hr]
          · exact ih _ _ hb'
        · split at hb
          · rcases List.mem_cons.mp hb with rfl | hb'
            · intro r hr; simp [heading_block, blockRich] at hr; simp [← hr]
            · exact ih _ _ hb'
          · split at hb
            · rcases List.mem_cons.mp hb with rfl | hb'
              · intro r hr; simp [heading_block, blockRich] at hr; simp [← hr]
              · exact ih _ _ hb'
            · split at hb
              · rcases List.mem_cons.mp hb with rfl | hb'
                · intro r hr; simp [blockRich] at hr
                · exact ih _ _ hb'
              · split at hb
                · rcases List.mem_cons.mp hb with rfl | hb'
                  · intro r hr; simp [blockRich] at hr; simp [← hr]
                  · exact ih _ _ hb'
                · split at hb
                  · rcases List.mem_cons.mp hb with rfl | hb'
                    · intro r hr; simp [blockRich] at hr
                    · exact ih _ _ hb'
                  · split at hb
                    · rcases List.mem_cons.mp hb with rfl | hb'
                      · intro r hr; simp [blockRich] at hr; simp [← hr]
                      · exact ih _ _ hb'
                    · split at hb
                      · rcases List.mem_cons.mp hb with rfl | hb'
                        · intro r hr; simp [blockRich] at hr; simp [← hr]
                        · exact ih _ _ hb'
                      · split at hb
                        · rcases List.mem_cons.mp hb with rfl | hb'
                          · intro r hr; simp [blockRich] at hr; simp [← hr]
                          · exact ih _ _ hb'
                        · rcases List.mem_cons.mp hb with rfl | hb'
                          · intro r hr; simp [blockRich] at hr; simp [← hr]
                          · exact ih _ _ hb'

theorem dropWhile_append_last {p : Char → Bool} {c : Char} (h : p c = false) (xs : List Char) :
    (xs ++ [c]).dropWhile p = xs.dropWhile p ++ [c] := by
  induction xs with
  | nil => simp [List.dropWhile, h]
  | cons x xs ih =>
    by_cases hx : p x
    · simpa [List.dropWhile, hx] using ih
    · simp [List.dropWhile, hx]

theorem strip_cons_of_not_space {c : Char} (h : isPySpace c = false) (t : List Char) :
    strip (c :: t) = c :: (t.reverse.dropWhile isPySpace).reverse := by
  unfold strip
  rw [List.dropWhile_cons_of_neg (by simp [h]), List.reverse_cons,
    dropWhile_append_last h, List.reverse_append]
  rfl

theorem strip_head {c : Char} (h : isPySpace c = false) (t : List Char) :
    (strip (c :: t)).head? = some c := by
  rw [strip_cons_of_not_space h]; rfl

theorem isPrefixOf_two {a b : Char} {l : List Char} (h : List.isPrefixOf [a, b] l = true) :
    ∃ t, l = a :: b :: t := by
  match l with
  | [] => simp [List.isPrefixOf] at h
  | [x] => simp [List.isPrefixOf] at h
  | x :: y :: t =>
    simp only [List.isPrefixOf, Bool.and_eq_true, beq_iff_eq] at h
    exact ⟨t, by simp [h.1, h.2.1]⟩

theorem isPrefixOf_three {a b c : Char} {l : List Char} (h : List.isPrefixOf [a, b, c] l = true) :
    ∃ t, l = a :: b :: c :: t := by
  match l with
  | [] => simp [List.isPrefixOf] at h
  | [x] => simp [List.isPrefixOf] at h
  | [x, y] => simp [List.isPrefixOf] at h
  | x :: y :: z :: t =>
    simp only [List.isPrefixOf, Bool.and_eq_true, beq_iff_eq] at h
    exact ⟨t, by simp [h.1, h.2.1, h.2.2.1]⟩

theorem quote_step (f : Nat) (line : List Char) (rest : List (List Char))
    (h : quoteMarker.isPrefixOf line = true) :
    blocksLoopF (f+1) (line :: rest) =
      Block.quote [plainSpan (line.drop 2)] :: blocksLoopF f rest := by
  obtain ⟨t, rfl⟩ := isPrefixOf_two h
  have hh : (strip ('>' :: ' ' :: t)).head? = some '>' := strip_head (by decide) _
  rw [blocksLoopF_cons]
  rw [if_neg (fun e => by rw [e] at hh; exact absurd hh (by decide))]
  rw [if_neg (by simp [h1Marker, List.isPrefixOf])]
  rw [if_neg (by simp [h2Marker, List.isPrefixOf])]
  rw [if_neg (by simp [h3Marker, List.isPrefixOf])]
  rw [if_neg (by rintro (e | e | e) <;> (rw [e] at hh; exact absurd hh (by decide)))]
  rw [if_pos (by simp [quoteMarker, List.isPrefixOf])]

theorem fence_step (f : Nat) (line : List Char) (rest : List (List Char))
    (h : fenceMarker.isPrefixOf line = true) :
    blocksLoopF (f+1) (line :: rest) =
      Block.code
        (if (if 3 < line.length then strip (line.drop 3) else []) = [] then plainTextLang
         else if 3 < line.length then strip (line.drop 3) else [])
        [plainSpan (List.intercalate ['\n'] (rest.takeWhile (fun l => !(fenceMarker.isPrefixOf l))))]
      :: blocksLoopF f ((rest.dropWhile (fun l => !(fenceMarker.isPrefixOf l))).drop 1) := by
  obtain ⟨t, rfl⟩ := isPrefixOf_three h
  have hh : (strip ('`' :: '`' :: '`' :: t)).head? = some '`' := strip_head (by decide) _
  rw [blocksLoopF_cons]
  rw [if_neg (fun e => by rw [e] at hh; exact absurd hh (by decide))]
  rw [if_neg (by simp [h1Marker, List.isPrefixOf])]
  rw [if_neg (by simp [h2Marker, List.isPrefixOf])]
  rw [if_neg (by simp [h3Marker, List.isPrefixOf])]
  rw [if_neg (by rintro (e | e | e) <;> (rw [e] at hh; exact absurd hh (by decide)))]
  rw [if_neg (by simp [quoteMarker, List.isPrefixOf])]
  rw [if_pos (by simp [fenceMarker, List.isPrefixOf])]

theorem digit_not_space {d : Char} (hd : Char.isDigit d = true) : isPySpace d = false := by
  by_contra h
  rw [Bool.not_eq_false] at h
  simp only [isPySpace, Bool.or_eq_true, decide_eq_true_eq] at h
  rcases h with ((((h | h) | h) | h) | h) | h <;> (subst h; exact absurd hd (by decide))

theorem numberedRest_shape {line r : List Char} (h : numberedRest line = some r) :
    ∃ d u, line = d :: u ∧ Char.isDigit d = true := by
  unfold numberedRest at h
  split at h
  · exact absurd h (by simp)
  · rename_i hne
    cases line with
    | nil => simp [List.takeWhile] at hne
    | cons d u =>
      refine ⟨d, u, rfl, ?_⟩
      by_contra hd
      rw [Bool.not_eq_true] at hd
      simp [List.takeWhile, hd] at hne

theorem numbered_step (f : Nat) (line : List Char) (rest : List (List Char))
    (r : List Char) (h : numberedRest line = some r) :
    blocksLoopF (f+1) (line :: rest) =
      Block.numbered [parse_rich_text r] :: blocksLoopF f rest := by
  obtain ⟨d, u, rfl, hd⟩ := numberedRest_shape h
  have hsp : isPySpace d = false := digit_not_space hd
  have hh : (strip (d :: u)).head? = some d := strip_head hsp _
  have hlit : ∀ c : Char, Char.isDigit c = false → c ≠ d := by
    intro c hc e
    rw [← e] at hd
    rw [hd] at hc
    cases hc
  rw [blocksLoopF_cons]
  rw [if_neg (fun e => by rw [e] at hh; simp at hh)]
  rw [if_neg (by
    simp only [h1Marker, List.isPrefixOf, Bool.and_eq_true, beq_iff_eq]
    rintro ⟨e, -⟩
    exact hlit '#' (by decide) e)]
  rw [if_neg (by
    simp only [h2Marker, List.isPrefixOf, Bool.and_eq_true, beq_iff_eq]
    rintro ⟨e, -⟩
    exact hlit '#' (by decide) e)]
  rw [if_neg (by
    simp only [h3Marker, List.isPrefixOf, Bool.and_eq_true, beq_iff_eq]
    rintro ⟨e, -⟩
    exact hlit '#' (by decide) e)]
  rw [if_neg (by
    rintro (e | e | e)
    · rw [e] at hh
      rw [show dashRule.head? = some '-' from by decide] at hh
      exact hlit '-' (by decide) (Option.some.inj hh)
    · rw [e] at hh
      rw [show starRule.head? = some '*' from by decide] at hh
      exact hlit '*' (by decide) (Option.some.inj hh)
    · rw [e] at hh
      rw [show underscoreRule.head? = some '_' from by decide] at hh
      exact hlit '_' (by decide) (Option.some.inj hh))]
  rw [if_neg (by
    simp only [quoteMarker, List.isPrefixOf, Bool.and_eq_true, beq_iff_eq]
    rintro ⟨e, -⟩
    exact hlit '>' (by decide) e)]
  rw [if_neg (by
    simp only [fenceMarker, List.isPrefixOf, Bool.and_eq_true, beq_iff_eq]
    rintro ⟨e, -⟩
    exact hlit '`' (by decide) e)]
  rw [if_neg (by
    have hs := strip_cons_of_not_space hsp u
    rintro (e | e)
    · rw [hs] at e
      simp only [bulletMarker1, List.isPrefixOf, Bool.and_eq_true, beq_iff_eq] at e
      exact hlit '-' (by decide) e.1
    · rw [hs] at e
      simp only [bulletMarker2, List.isPrefixOf, Bool.and_eq_true, beq_iff_eq] at e
      exact hlit '*' (by decide) e.1)]
  rw [h]

theorem table_step (f : Nat) (line : List Char) (rest : List (List Char))
    (hpipe : '|' ∈ line)
    (hns : ('|' :: []).isPrefixOf (strip line) = false)
    (hne : strip line ≠ [])
    (hh1 : h1Marker.isPrefixOf line = false)
    (hh2 : h2Marker.isPrefixOf line = false)
    (hh3 : h3Marker.isPrefixOf line = false)
    (hdiv : ¬(strip line = dashRule ∨ strip line = starRule ∨ strip line = underscoreRule))
    (hq : quoteMarker.isPrefixOf line = false)
    (hf : fenceMarker.isPrefixOf line = false)
    (hb : ¬(bulletMarker1.isPrefixOf (strip line) = true ∨
            bulletMarker2.isPrefixOf (strip line) = true))
    (hn : numberedRest line = none) :
    blocksLoopF (f+1) (line :: rest) =
      Block.paragraph [parse_rich_text (tableText line)] :: blocksLoopF f rest := by
  rw [blocksLoopF_cons]
  rw [if_neg hne, if_neg (by simp [hh1]), if_neg (by simp [hh2]), if_neg (by simp [hh3]),
    if_neg hdiv, if_neg (by simp [hq]), if_neg (by simp [hf]), if_neg hb, hn]
  rw [if_pos ⟨hpipe, by simp [hns]⟩]

theorem heading1_step (f : Nat) (line : List Char) (rest : List (List Char))
    (h : h1Marker.isPrefixOf line = true) :
    blocksLoopF (f+1) (line :: rest) =
      Block.heading 1 [parse_rich_text (line.drop 2)] :: blocksLoopF f rest := by
  obtain ⟨t, rfl⟩ := isPrefixOf_two h
  have hh : (strip ('#' :: ' ' :: t)).head? = some '#' := strip_head (by decide) _
  rw [blocksLoopF_cons]
  rw [if_neg (fun e => by rw [e] at hh; exact absurd hh (by decide))]
  rw [if_pos (by simp [h1Marker, List.isPrefixOf])]
  rfl

/-- Claim C1: for every input string, `markdown_to_blocks` (a total Lean
function, so it cannot raise) returns a list of at most 100 blocks. -/
theorem claim_C1 (content : List Char) : (markdown_to_blocks content).length ≤ 100 := by
  unfold markdown_to_blocks
  rw [List.length_take]
  exact min_le_left _ _

/-- Claim C2: `markdown_to_blocks` is exactly the 100-truncation of the
full dispatch-loop output, so a document whose dispatch produces more
than 100 blocks yields exactly the first 100 in source order, and a
document producing at most 100 blocks is returned unchanged. -/
theorem claim_C2 (content : List Char) :
    markdown_to_blocks content = (blocksLoop (splitOnChar '\n' content)).take 100 ∧
    (100 < (blocksLoop (splitOnChar '\n' content)).length →
      (markdown_to_blocks content).length = 100) ∧
    ((blocksLoop (splitOnChar '\n' content)).length ≤ 100 →
      markdown_to_blocks content = blocksLoop (splitOnChar '\n' content)) := by
  refine ⟨rfl, ?_, ?_⟩
  · intro h
    unfold markdown_to_blocks
    rw [List.length_take]
    exact min_eq_left (le_of_lt h)
  · intro h
    unfold markdown_to_blocks
    exact List.take_of_length_le h

theorem claim_C2_w :
    100 < (blocksLoop (splitOnChar '\n'
        (List.intercalate ['\n'] (List.replicate 101 ['a'])))).length ∧
    (markdown_to_blocks (List.intercalate ['\n'] (List.replicate 101 ['a']))).length = 100 ∧
    markdown_to_blocks ("a".toList) = blocksLoop (splitOnChar '\n' ("a".toList)) :=
  ⟨by decide, ((claim_C2 _).2.1 (by decide)), (claim_C2 _).2.2 (by decide)⟩

/-- Claim C3 (corrected): the table-row rule fires only for a line that
contains a pipe, whose trimmed form does NOT start with a pipe, and that
matched no earlier rule; it then splits on the pipe, drops the first and
last fields, trims the rest and joins with a spaced pipe (`tableText`).
The claim's example line, which starts with a pipe after trimming, does
not take this rule (see the counterexample). -/
theorem claim_C3 (f : Nat) (line : List Char) (rest : List (List Char))
    (hpipe : '|' ∈ line)
    (hns : ('|' :: []).isPrefixOf (strip line) = false)
    (hne : strip line ≠ [])
    (hh1 : h1Marker.isPrefixOf line = false)
    (hh2 : h2Marker.isPrefixOf line = false)
    (hh3 : h3Marker.isPrefixOf line = false)
    (hdiv : ¬(strip line = dashRule ∨ strip line = starRule ∨ strip line = underscoreRule))
    (hq : quoteMarker.isPrefixOf line = false)
    (hf : fenceMarker.isPrefixOf line = false)
    (hb : ¬(bulletMarker1.isPrefixOf (strip line) = true ∨
            bulletMarker2.isPrefixOf (strip line) = true))
    (hn : numberedRest line = none) :
    blocksLoopF (f+1) (line :: rest) =
      Block.paragraph [parse_rich_text (tableText line)] :: blocksLoopF f rest :=
  table_step f line rest hpipe hns hne hh1 hh2 hh3 hdiv hq hf hb hn

theorem claim_C3_w :
    blocksLoopF 1 (("x | a | b | y".toList) :: []) =
      [Block.paragraph [plainSpan ("a | b".toList)]] := by
  rw [claim_C3 0 ("x | a | b | y".toList) [] (by decide) (by decide) (by decide) (by decide)
    (by decide) (by decide) (by decide) (by decide) (by decide) (by decide) (by decide)]
  decide

theorem claim_C3_cex :
    markdown_to_blocks ("| a | b | c |".toList) =
      [Block.paragraph [plainSpan ("| a | b | c |".toList)]] ∧
    ("| a | b | c |".toList) ≠ ("a | b | c".toList) :=
  ⟨by decide, by decide⟩

/-- Claim C4: the span delivered to a block is the first span the scan
produced; any later spans of the same line are discarded. -/
theorem claim_C4 : ∀ text s rest, parseScan text = s :: rest → parse_rich_text text = s := by
  intro text s rest h
  unfold parse_rich_text
  rw [h]

theorem claim_C4_w :
    parseScan ("**bold** text".toList) = boldSpan ("bold".toList) :: [plainSpan (" text".toList)] ∧
    parse_rich_text ("**bold** text".toList) = boldSpan ("bold".toList) :=
  ⟨by decide, claim_C4 ("**bold** text".toList) (boldSpan ("bold".toList))
    [plainSpan (" text".toList)] (by decide)⟩

/-- Claim C5 (corrected): the internal scan produces zero spans exactly
for the empty string, but `_parse_rich_text` then returns a single span
with empty content rather than an empty list; every non-empty input
produces at least one scanned span. -/
theorem claim_C5 :
    parseScan [] = [] ∧ parse_rich_text [] = plainSpan [] ∧
    (∀ text : List Char, text ≠ [] → parseScan text ≠ []) := by
  refine ⟨by decide, by decide, ?_⟩
  intro text hne h
  exact hne (parseF_eq_nil text.length none text [] le_rfl h).1

theorem claim_C5_w : parseScan ("x".toList) ≠ [] :=
  claim_C5.2.2 ("x".toList) (by decide)

theorem claim_C5_cex :
    parse_rich_text [] = plainSpan [] ∧
    blockRich (heading_block [] 1) = some [plainSpan []] ∧
    blockRich (heading_block [] 1) ≠ some [] :=
  ⟨by decide, by decide, by decide⟩

/-- Claim C6 (corrected): every span the scan produces satisfies the
delimiter invariant that actually holds: bold content contains no `**`,
italic content contains no `*`, and link content contains no `]` (a link
span's content CAN contain `[`, `(` and `)`, see the counterexample). -/
theorem claim_C6 : ∀ text s, s ∈ parseScan text → spanMarksOk s :=
  fun _ s h => parseF_marks _ _ _ _ s h

theorem claim_C6_w :
    boldSpan ("b".toList) ∈ parseScan ("**b** *i* [l](u)".toList) ∧
    spanMarksOk (boldSpan ("b".toList)) :=
  ⟨by decide, claim_C6 ("**b** *i* [l](u)".toList) (boldSpan ("b".toList)) (by decide)⟩

theorem claim_C6_cex :
    parse_rich_text ("[[a](u)".toList) = linkSpan ("[a".toList) ("u".toList) ∧
    (parse_rich_text ("[[a](u)".toList)).link.isSome = true ∧
    '[' ∈ (parse_rich_text ("[[a](u)".toList)).content :=
  ⟨by decide, by decide, by decide⟩

/-- Claim C7 (corrected): the numbered-item rule tests the RAW line, not
its trimmed form, against the digits-period-space pattern; when the raw
line matches, a NumberedItem block is produced with the prefix stripped.
A line whose trimmed form matches but whose raw form does not (leading
whitespace) becomes a Paragraph instead (see the counterexample). -/
theorem claim_C7 (f : Nat) (line : List Char) (rest : List (List Char))
    (r : List Char) (h : numberedRest line = some r) :
    blocksLoopF (f+1) (line :: rest) =
      Block.numbered [parse_rich_text r] :: blocksLoopF f rest :=
  numbered_step f line rest r h

theorem claim_C7_w :
    blocksLoopF 1 (("3. third".toList) :: []) =
      [Block.numbered [plainSpan ("third".toList)]] := by
  rw [claim_C7 0 ("3. third".toList) [] ("third".toList) (by decide)]
  decide

theorem claim_C7_cex :
    markdown_to_blocks (" 3. third".toList) =
      [Block.paragraph [plainSpan (" 3. third".toList)]] ∧
    numberedRest (strip (" 3. third".toList)) = some ("third".toList) :=
  ⟨by decide, by decide⟩

/-- Claim C8: a line starting with a triple-backtick fence emits one Code
block whose language is the trimmed fence remainder (defaulting to
`plain text` when empty), whose content is the following lines joined
with newlines up to but excluding the next fence-starting line (all
remaining lines when none exists), and the scan resumes strictly after
the closing fence line. -/
theorem claim_C8 (f : Nat) (line : List Char) (rest : List (List Char))
    (h : fenceMarker.isPrefixOf line = true) :
    blocksLoopF (f+1) (line :: rest) =
      Block.code
        (if (if 3 < line.length then strip (line.drop 3) else []) = [] then plainTextLang
         else if 3 < line.length then strip (line.drop 3) else [])
        [plainSpan (List.intercalate ['\n'] (rest.takeWhile (fun l => !(fenceMarker.isPrefixOf l))))]
      :: blocksLoopF f ((rest.dropWhile (fun l => !(fenceMarker.isPrefixOf l))).drop 1) :=
  fence_step f line rest h

theorem claim_C8_w :
    blocksLoopF 3 (("```".toList) :: ["line1".toList, "line2".toList]) =
      [Block.code plainTextLang [plainSpan ("line1\nline2".toList)]] ∧
    markdown_to_blocks ("```python\nprint(1)\nprint(2)\n```\nafter".toList) =
      [Block.code ("python".toList) [plainSpan ("print(1)\nprint(2)".toList)],
       Block.paragraph [plainSpan ("after".toList)]] := by
  constructor
  · rw [claim_C8 2 ("```".toList) ["line1".toList, "line2".toList] (by decide)]
    decide
  · decide

/-- Claim C9: a line starting with `> ` yields a Quote block holding the
raw remainder of the line as a single plain span, NOT passed through the
inline formatter, while a heading line passes its text through
`parse_rich_text`. -/
theorem claim_C9 :
    (∀ f (line : List Char) rest, quoteMarker.isPrefixOf line = true →
      blocksLoopF (f+1) (line :: rest) =
        Block.quote [plainSpan (line.drop 2)] :: blocksLoopF f rest) ∧
    (∀ f (line : List Char) rest, h1Marker.isPrefixOf line = true →
      blocksLoopF (f+1) (line :: rest) =
        Block.heading 1 [parse_rich_text (line.drop 2)] :: blocksLoopF f rest) :=
  ⟨fun f line rest h => quote_step f line rest h,
   fun f line rest h => heading1_step f line rest h⟩

theorem claim_C9_w :
    blocksLoopF 1 (("> **b**".toList) :: []) =
      [Block.quote [plainSpan ("**b**".toList)]] ∧
    blocksLoopF 1 (("# **b**".toList) :: []) =
      [Block.heading 1 [boldSpan ("b".toList)]] := by
  constructor
  · rw [claim_C9.1 0 ("> **b**".toList) [] (by decide)]
    decide
  · rw [claim_C9.2 0 ("# **b**".toList) [] (by decide)]
    decide

/-- Claim C10: every block other than Divider and Code carries a
rich-text list of exactly one span, and the heading line with empty text
after the marker yields a single span with empty content. -/
theorem claim_C10 :
    (∀ content b, b ∈ markdown_to_blocks content →
      ∀ r, blockRich b = some r → r.length = 1) ∧
    markdown_to_blocks ("# ".toList) = [Block.heading 1 [plainSpan []]] := by
  constructor
  · intro content b hb r hr
    exact blocksLoopF_rich _ _ b (List.take_subset 100 _ hb) r hr
  · decide

theorem claim_C10_w :
    Block.paragraph [plainSpan ("x".toList)] ∈ markdown_to_blocks ("x".toList) ∧
    ([plainSpan ("x".toList)] : List TextSpan).length = 1 :=
  ⟨by decide, claim_C10.1 ("x".toList) (Block.paragraph [plainSpan ("x".toList)])
    (by decide) [plainSpan ("x".toList)] (by decide)⟩
